import Mathlib

/-!
Verification of the hashstore content-addressed identity core
(`hashstore/bakery/__init__.py` and `hashstore/bakery/lite/dal.py`).

Bytes are modelled as `List Nat` with entries `< 256`; character strings as
`List Char`.  External library functions (Python's `hashlib.sha256`,
`json.dumps`/`json.loads`, UTF-8 encoding) are taken as parameters of the
definitions that call them.  The repository's own `hashstore/utils/base_x.py`
codec and `base64` decoding are not part of the provided sources and are
modelled from the specification where noted.
-/

set_option maxRecDepth 8192

namespace Hashstore

/-! ### Positional digit machinery (little-endian), used by the base-N codec -/

/-- Little-endian digits of `n` in base `b`, with explicit fuel so that the
definition is structurally recursive (kernel-reducible). -/
def digitsLEAux (b : Nat) : Nat → Nat → List Nat
  | 0, _ => []
  | fuel+1, n => if n = 0 then [] else n % b :: digitsLEAux b fuel (n / b)

/-- Little-endian digits of `n` in base `b` (`n` itself is always enough fuel). -/
def digitsLE (b n : Nat) : List Nat := digitsLEAux b n n

/-- Value of a little-endian digit list in base `b`. -/
def ofDigitsLE (b : Nat) : List Nat → Nat
  | [] => 0
  | d :: ds => d + b * ofDigitsLE b ds

/-- Value of a big-endian digit list in base `b` (positional semantics). -/
def ofDigitsBE (b : Nat) (l : List Nat) : Nat := ofDigitsLE b l.reverse

/-- Big-endian digits of `n` in base `b`. -/
def toDigitsBE (b n : Nat) : List Nat := (digitsLE b n).reverse

theorem digitsLEAux_zero (b : Nat) (fuel : Nat) : digitsLEAux b fuel 0 = [] := by
  cases fuel <;> simp [digitsLEAux]

theorem digitsLEAux_congr (b : Nat) (hb : 2 ≤ b) :
    ∀ f g n, n ≤ f → n ≤ g → digitsLEAux b f n = digitsLEAux b g n := by
  intro f
  induction f with
  | zero =>
    intro g n hf _
    have hn : n = 0 := Nat.le_zero.mp hf
    subst hn
    rw [digitsLEAux_zero, digitsLEAux_zero]
  | succ f ih =>
    intro g n hf hg
    by_cases hn : n = 0
    · subst hn; rw [digitsLEAux_zero, digitsLEAux_zero]
    · have hnpos : 0 < n := Nat.pos_of_ne_zero hn
      obtain ⟨g', rfl⟩ : ∃ g', g = g' + 1 := by
        cases g with
        | zero => omega
        | succ g' => exact ⟨g', rfl⟩
      simp only [digitsLEAux, if_neg hn]
      have hdiv : n / b < n := Nat.div_lt_self hnpos (by omega)
      have h1 : n / b ≤ f := by omega
      have h2 : n / b ≤ g' := by omega
      rw [ih g' (n / b) h1 h2]

theorem digitsLE_zero (b : Nat) : digitsLE b 0 = [] := by
  simp [digitsLE, digitsLEAux_zero]

/-- Unfolding lemma: for `0 < n`, the digits of `n` start with `n % b`. -/
theorem digitsLE_eq_cons (b : Nat) (hb : 2 ≤ b) {n : Nat} (hn : 0 < n) :
    digitsLE b n = n % b :: digitsLE b (n / b) := by
  have hne : n ≠ 0 := Nat.pos_iff_ne_zero.mp hn
  obtain ⟨m, rfl⟩ : ∃ m, n = m + 1 := ⟨n - 1, by omega⟩
  show digitsLEAux b (m + 1) (m + 1) = _
  simp only [digitsLEAux, if_neg hne]
  congr 1
  exact digitsLEAux_congr b hb m ((m+1)/b) ((m+1)/b)
    (by have := Nat.div_lt_self hn (show 1 < b by omega); omega) (Nat.le_refl _)

theorem ofDigitsLE_digitsLE (b : Nat) (hb : 2 ≤ b) :
    ∀ n, ofDigitsLE b (digitsLE b n) = n := by
  intro n
  induction n using Nat.strong_induction_on with
  | _ n ih =>
    by_cases hn : n = 0
    · subst hn; simp [digitsLE_zero, ofDigitsLE]
    · have hnpos : 0 < n := Nat.pos_of_ne_zero hn
      rw [digitsLE_eq_cons b hb hnpos]
      simp only [ofDigitsLE]
      rw [ih (n / b) (Nat.div_lt_self hnpos (by omega))]
      exact Nat.mod_add_div n b

theorem ofDigitsLE_pos (b : Nat) (hb : 1 ≤ b) :
    ∀ l d, l.getLast? = some d → d ≠ 0 → 0 < ofDigitsLE b l := by
  intro l
  induction l with
  | nil => intro d h; simp at h
  | cons a l ih =>
    intro d hlast hd
    cases l with
    | nil =>
      simp only [List.getLast?_singleton, Option.some_inj] at hlast
      subst hlast
      simp only [ofDigitsLE]
      omega
    | cons a' l' =>
      have : (a' :: l').getLast? = some d := by
        rw [List.getLast?_cons_cons] at hlast
        exact hlast
      have hpos := ih d this hd
      have hunfold : ofDigitsLE b (a :: a' :: l') = a + b * ofDigitsLE b (a' :: l') := rfl
      have hbpos : 0 < b * ofDigitsLE b (a' :: l') := Nat.mul_pos (by omega) hpos
      omega

theorem digitsLE_ofDigitsLE (b : Nat) (hb : 2 ≤ b) :
    ∀ l, (∀ d ∈ l, d < b) → (∀ d, l.getLast? = some d → d ≠ 0) →
      digitsLE b (ofDigitsLE b l) = l := by
  intro l
  induction l with
  | nil => intro _ _; simp [ofDigitsLE, digitsLE_zero]
  | cons a l ih =>
    intro hlt hlast
    have ha : a < b := hlt a (List.mem_cons_self a l)
    cases l with
    | nil =>
      have hane : a ≠ 0 := hlast a (by simp)
      simp only [ofDigitsLE, Nat.mul_zero, Nat.add_zero]
      rw [digitsLE_eq_cons b hb (Nat.pos_of_ne_zero hane)]
      rw [Nat.mod_eq_of_lt ha, Nat.div_eq_of_lt ha, digitsLE_zero]
    | cons a' l' =>
      have hlast' : ∀ d, (a' :: l').getLast? = some d → d ≠ 0 := by
        intro d hd
        exact hlast d (by rw [List.getLast?_cons_cons]; exact hd)
      obtain ⟨d, hd⟩ : ∃ d, (a' :: l').getLast? = some d := by
        cases h : (a' :: l').getLast? with
        | none => simp [List.getLast?] at h
        | some d => exact ⟨d, rfl⟩
      have hm : 0 < ofDigitsLE b (a' :: l') :=
        ofDigitsLE_pos b (by omega) _ d hd (hlast' d hd)
      have hn : 0 < a + b * ofDigitsLE b (a' :: l') := by
        have : 1 * 1 ≤ b * ofDigitsLE b (a' :: l') :=
          Nat.mul_le_mul (by omega) hm
        omega
      have hmod : (a + b * ofDigitsLE b (a' :: l')) % b = a := by
        rw [Nat.add_mul_mod_self_left, Nat.mod_eq_of_lt ha]
      have hdiv : (a + b * ofDigitsLE b (a' :: l')) / b = ofDigitsLE b (a' :: l') := by
        rw [Nat.add_mul_div_left _ _ (show 0 < b by omega), Nat.div_eq_of_lt ha,
          Nat.zero_add]
      have hunfold : ofDigitsLE b (a :: a' :: l') = a + b * ofDigitsLE b (a' :: l') := rfl
      rw [hunfold, digitsLE_eq_cons b hb hn, hmod, hdiv,
        ih (fun d hdm => hlt d (List.mem_cons_of_mem a hdm)) hlast']

theorem digitsLE_lt (b : Nat) (hb : 2 ≤ b) :
    ∀ n, ∀ d ∈ digitsLE b n, d < b := by
  intro n
  induction n using Nat.strong_induction_on with
  | _ n ih =>
    by_cases hn : n = 0
    · subst hn; simp [digitsLE_zero]
    · rw [digitsLE_eq_cons b hb (Nat.pos_of_ne_zero hn)]
      intro d hd
      rcases List.mem_cons.mp hd with h | h
      · subst h; exact Nat.mod_lt n (by omega)
      · exact ih (n / b) (Nat.div_lt_self (Nat.pos_of_ne_zero hn) (by omega)) d h

theorem digitsLE_ne_nil (b : Nat) (hb : 2 ≤ b) {n : Nat} (hn : 0 < n) :
    digitsLE b n ≠ [] := by
  rw [digitsLE_eq_cons b hb hn]
  simp

theorem digitsLE_getLast?_ne_zero (b : Nat) (hb : 2 ≤ b) :
    ∀ n, 0 < n → ∀ d, (digitsLE b n).getLast? = some d → d ≠ 0 := by
  intro n
  induction n using Nat.strong_induction_on with
  | _ n ih =>
    intro hn d hd
    rw [digitsLE_eq_cons b hb hn] at hd
    by_cases hq : n / b = 0
    · rw [hq, digitsLE_zero] at hd
      simp only [List.getLast?_singleton, Option.some_inj] at hd
      subst hd
      have hnb : n < b := by
        by_contra hge
        have : 0 < n / b := Nat.div_pos (Nat.le_of_not_lt hge) (by omega)
        omega
      have : n % b = n := Nat.mod_eq_of_lt hnb
      omega
    · have hqpos : 0 < n / b := Nat.pos_of_ne_zero hq
      cases hcase : digitsLE b (n / b) with
      | nil => exact absurd hcase (digitsLE_ne_nil b hb hqpos)
      | cons x xs =>
        rw [hcase, List.getLast?_cons_cons] at hd
        rw [← hcase] at hd
        exact ih (n / b) (Nat.div_lt_self hn (by omega)) hqpos d hd

/-- Length of the digit expansion: `b^k ≤ n < b^(k+1)` gives `k+1` digits. -/
theorem digitsLE_length (b : Nat) (hb : 2 ≤ b) :
    ∀ k n, b ^ k ≤ n → n < b ^ (k + 1) → (digitsLE b n).length = k + 1 := by
  intro k
  induction k with
  | zero =>
    intro n h1 h2
    simp only [pow_zero] at h1
    have h2' : n < b := by simpa using h2
    rw [digitsLE_eq_cons b hb (by omega), Nat.div_eq_of_lt h2', digitsLE_zero]
    rfl
  | succ k ih =>
    intro n h1 h2
    have hbpos : 0 < b := by omega
    have hnpos : 0 < n := by
      have : 0 < b ^ (k + 1) := Nat.pos_pow_of_pos _ hbpos
      omega
    rw [digitsLE_eq_cons b hb hnpos]
    have hdiv1 : b ^ k ≤ n / b := by
      rw [Nat.le_div_iff_mul_le hbpos]
      calc b ^ k * b = b ^ (k + 1) := (pow_succ b k).symm
        _ ≤ n := h1
    have hdiv2 : n / b < b ^ (k + 1) := by
      rw [Nat.div_lt_iff_lt_mul hbpos]
      calc n < b ^ (k + 2) := h2
        _ = b ^ (k + 1) * b := pow_succ b (k+1)
    simp only [List.length_cons, ih (n / b) hdiv1 hdiv2]

theorem ofDigitsLE_append (b : Nat) :
    ∀ l1 l2, ofDigitsLE b (l1 ++ l2) =
      ofDigitsLE b l1 + b ^ l1.length * ofDigitsLE b l2 := by
  intro l1
  induction l1 with
  | nil => intro l2; simp [ofDigitsLE]
  | cons a l ih =>
    intro l2
    show a + b * ofDigitsLE b (l ++ l2) =
      (a + b * ofDigitsLE b l) + b ^ (l.length + 1) * ofDigitsLE b l2
    rw [ih]
    ring

theorem ofDigitsLE_lt (b : Nat) (hb : 1 ≤ b) :
    ∀ l, (∀ d ∈ l, d < b) → ofDigitsLE b l < b ^ l.length := by
  intro l
  induction l with
  | nil => intro _; simp [ofDigitsLE]
  | cons a l ih =>
    intro h
    have ha : a < b := h a (List.mem_cons_self a l)
    have hl := ih (fun d hd => h d (List.mem_cons_of_mem a hd))
    simp only [ofDigitsLE, List.length_cons, pow_succ]
    have hstep : a + b * ofDigitsLE b l + 1 ≤ b ^ l.length * b :=
      calc a + b * ofDigitsLE b l + 1 ≤ b + b * ofDigitsLE b l := by omega
        _ = b * (ofDigitsLE b l + 1) := by ring
        _ ≤ b * b ^ l.length := Nat.mul_le_mul_left b (by omega)
        _ = b ^ l.length * b := Nat.mul_comm _ _
    omega

/-! ### Base-N codec

`hashstore/utils/base_x.py` is imported by `hashstore/bakery/__init__.py`
(`B62 = base_x(62)`, `B36 = base_x(36)`) but is not among the provided
sources; the codec below is modelled from the specification (§4.1). -/

/-- Consecutive codepoints `start, start+1, ..., start+len-1` as characters. -/
def charRange (start len : Nat) : List Char :=
  (List.range len).map (fun i => Char.ofNat (start + i))

/-- Modelled from the spec: the base-62 alphabet used by `base_x(62)`.
The ordering `0-9a-zA-Z` (digits, then lowercase, then uppercase) is the one
that reproduces the doctest strings of `hashstore/bakery/__init__.py`, e.g.
`str(Cake.from_bytes(b'The quick brown fox jumps over'))`. -/
def alphabet62 : List Char :=
  charRange 48 10 ++ charRange 97 26 ++ charRange 65 26

/-- Modelled from the spec: the base-36 alphabet `0-9a-z` used by
`base_x(36)`. -/
def alphabet36 : List Char :=
  charRange 48 10 ++ charRange 97 26

/-- Index of a character in an alphabet (`none` when absent). -/
def charIndex : List Char → Char → Option Nat
  | [], _ => none
  | a :: as, c => if a = c then some 0 else (charIndex as c).map (· + 1)

/-- Translate a character string to digit values; fails on any character
outside the alphabet. -/
def charsToDigits (A : List Char) : List Char → Option (List Nat)
  | [] => some []
  | c :: cs =>
    match charIndex A c, charsToDigits A cs with
    | some d, some ds => some (d :: ds)
    | _, _ => none

/-- Modelled from the spec: `encode_int` of `base_x` — pure positional
numeric encoding (no leading-zero semantics); `encode_int 0` is the zero
character. -/
def encode_int (A : List Char) (n : Nat) : List Char :=
  if n = 0 then [A.getD 0 ' ']
  else (toDigitsBE A.length n).map (fun d => A.getD d ' ')

/-- Modelled from the spec: `decode_int` of `base_x` — positional decoding,
failing on characters outside the alphabet. -/
def decode_int (A : List Char) (s : List Char) : Option Nat :=
  (charsToDigits A s).map (ofDigitsBE A.length)

/-- Modelled from the spec: `encode` of `base_x` — leading zero bytes are
preserved as leading zero characters, the remainder is encoded positionally. -/
def encodeBytes (A : List Char) : List Nat → List Char
  | [] => []
  | x :: bs =>
    if x = 0 then A.getD 0 ' ' :: encodeBytes A bs
    else (toDigitsBE A.length (ofDigitsBE 256 (x :: bs))).map (fun d => A.getD d ' ')

/-- Modelled from the spec: `decode` of `base_x` — leading zero characters
become leading zero bytes, the remainder is decoded positionally. -/
def decodeChars (A : List Char) : List Char → Option (List Nat)
  | [] => some []
  | c :: cs =>
    if c = A.getD 0 ' ' then (decodeChars A cs).map (fun bs => 0 :: bs)
    else (charsToDigits A (c :: cs)).map
      (fun ds => toDigitsBE 256 (ofDigitsBE A.length ds))

/-- A usable codec alphabet: at least two characters, and indexing inverts
positional access. -/
def GoodAlphabet (A : List Char) : Prop :=
  2 ≤ A.length ∧ ∀ d ∈ List.range A.length, charIndex A (A.getD d ' ') = some d

theorem alphabet62_good : GoodAlphabet alphabet62 := ⟨by decide, by decide⟩

theorem alphabet36_good : GoodAlphabet alphabet36 := ⟨by decide, by decide⟩

theorem encodeBytes_cons (A : List Char) (x : Nat) (bs : List Nat) :
    encodeBytes A (x :: bs) =
      if x = 0 then A.getD 0 ' ' :: encodeBytes A bs
      else (toDigitsBE A.length (ofDigitsBE 256 (x :: bs))).map
        (fun d => A.getD d ' ') := rfl

theorem decodeChars_cons (A : List Char) (c : Char) (cs : List Char) :
    decodeChars A (c :: cs) =
      if c = A.getD 0 ' ' then (decodeChars A cs).map (fun bs => 0 :: bs)
      else (charsToDigits A (c :: cs)).map
        (fun ds => toDigitsBE 256 (ofDigitsBE A.length ds)) := rfl

theorem GoodAlphabet.idx {A : List Char} (hA : GoodAlphabet A) {d : Nat}
    (hd : d < A.length) : charIndex A (A.getD d ' ') = some d :=
  hA.2 d (List.mem_range.mpr hd)

theorem GoodAlphabet.getD_ne {A : List Char} (hA : GoodAlphabet A) {d : Nat}
    (hd : d < A.length) (hd0 : d ≠ 0) : A.getD d ' ' ≠ A.getD 0 ' ' := by
  intro heq
  have h1 := hA.idx hd
  have h2 := hA.idx (show 0 < A.length by omega)
  rw [heq, h2] at h1
  exact hd0 (Option.some_inj.mp h1).symm

theorem charsToDigits_map {A : List Char} (hA : GoodAlphabet A) :
    ∀ ds : List Nat, (∀ d ∈ ds, d < A.length) →
      charsToDigits A (ds.map (fun d => A.getD d ' ')) = some ds := by
  intro ds
  induction ds with
  | nil => intro _; rfl
  | cons d ds ih =>
    intro h
    have hd : d < A.length := h d (List.mem_cons_self d ds)
    simp only [List.map_cons, charsToDigits,
      hA.idx hd, ih (fun x hx => h x (List.mem_cons_of_mem d hx))]

/-- Round trip of the byte codec on well-formed byte strings. -/
theorem decodeChars_encodeBytes {A : List Char} (hA : GoodAlphabet A) :
    ∀ bs : List Nat, (∀ x ∈ bs, x < 256) →
      decodeChars A (encodeBytes A bs) = some bs := by
  intro bs
  induction bs with
  | nil => intro _; rfl
  | cons x bs ih =>
    intro h
    by_cases hx : x = 0
    · subst hx
      rw [encodeBytes_cons, if_pos rfl, decodeChars_cons, if_pos rfl,
        ih (fun y hy => h y (List.mem_cons_of_mem 0 hy))]
      rfl
    · have hA2 : 2 ≤ A.length := hA.1
      have hrev_eq : (x :: bs).reverse = bs.reverse ++ [x] := by
        simp [List.reverse_cons]
      have hlast : ((x :: bs).reverse).getLast? = some x := by
        rw [hrev_eq]
        exact List.getLast?_concat _
      have hnpos : 0 < ofDigitsBE 256 (x :: bs) :=
        ofDigitsLE_pos 256 (by omega) _ x hlast hx
      have hdig_ne : digitsLE A.length (ofDigitsBE 256 (x :: bs)) ≠ [] :=
        digitsLE_ne_nil _ hA2 hnpos
      cases hrev : (digitsLE A.length (ofDigitsBE 256 (x :: bs))).reverse with
      | nil =>
        exact absurd (by simpa using congrArg List.reverse hrev) hdig_ne
      | cons d0 ds =>
        have hdigits : digitsLE A.length (ofDigitsBE 256 (x :: bs)) =
            (d0 :: ds).reverse := by
          have h' := congrArg List.reverse hrev
          simpa using h'
        have hd0_last :
            (digitsLE A.length (ofDigitsBE 256 (x :: bs))).getLast? = some d0 := by
          rw [hdigits, List.reverse_cons]
          exact List.getLast?_concat _
        have hd0_ne : d0 ≠ 0 :=
          digitsLE_getLast?_ne_zero _ hA2 _ hnpos d0 hd0_last
        have hall_lt : ∀ d ∈ d0 :: ds, d < A.length := by
          intro d hd
          apply digitsLE_lt _ hA2 (ofDigitsBE 256 (x :: bs)) d
          rw [hdigits]
          exact List.mem_reverse.mpr hd
        have hd0_lt : d0 < A.length := hall_lt d0 (List.mem_cons_self _ _)
        have henc : encodeBytes A (x :: bs) =
            (A.getD d0 ' ') :: ds.map (fun d => A.getD d ' ') := by
          rw [encodeBytes_cons, if_neg hx]
          show (digitsLE A.length (ofDigitsBE 256 (x :: bs))).reverse.map _ = _
          rw [hrev, List.map_cons]
        rw [henc, decodeChars_cons, if_neg (hA.getD_ne hd0_lt hd0_ne)]
        have hctd := charsToDigits_map hA (d0 :: ds) hall_lt
        rw [List.map_cons] at hctd
        rw [hctd]
        show some (toDigitsBE 256 (ofDigitsBE A.length (d0 :: ds))) = _
        have hval : ofDigitsBE A.length (d0 :: ds) = ofDigitsBE 256 (x :: bs) := by
          show ofDigitsLE A.length (d0 :: ds).reverse = _
          rw [← hdigits]
          exact ofDigitsLE_digitsLE _ hA2 _
        rw [hval]
        have hbytes : digitsLE 256 (ofDigitsBE 256 (x :: bs)) = bs.reverse ++ [x] := by
          show digitsLE 256 (ofDigitsLE 256 (x :: bs).reverse) = _
          rw [hrev_eq]
          apply digitsLE_ofDigitsLE 256 (by omega)
          · intro d hd
            rcases List.mem_append.mp hd with hmem | hmem
            · exact h d (List.mem_cons_of_mem x (List.mem_reverse.mp hmem))
            · have hdx : d = x := by simpa using hmem
              subst hdx
              exact h d (List.mem_cons_self _ _)
          · intro d hd
            rw [List.getLast?_concat] at hd
            have hdx : d = x := Option.some_inj.mp hd.symm
            subst hdx
            exact hx
        show some ((digitsLE 256 (ofDigitsBE 256 (x :: bs))).reverse) = _
        rw [hbytes]
        simp

/-! ### Cake: roles, types, header packing (`hashstore/bakery/__init__.py`) -/

def MAX_NUM_OF_SHARDS : Nat := 8192

def inline_max_bytes : Nat := 32

inductive CakeRole
  | SYNAPSE
  | NEURON
deriving DecidableEq, Repr, Fintype

def CakeRole.code : CakeRole → Nat
  | .SYNAPSE => 0
  | .NEURON => 1

def CakeRole.find_by_code (c : Nat) : Option CakeRole :=
  if c = 0 then some .SYNAPSE else if c = 1 then some .NEURON else none

inductive CakeType
  | INLINE
  | SHA256
  | PORTAL
  | VTREE
  | DMOUNT
  | EVENT
  | DAG_STATE
  | JSON_WRAP
deriving DecidableEq, Repr, Fintype

def CakeType.code : CakeType → Nat
  | .INLINE => 0
  | .SHA256 => 1
  | .PORTAL => 2
  | .VTREE => 3
  | .DMOUNT => 4
  | .EVENT => 5
  | .DAG_STATE => 6
  | .JSON_WRAP => 7

def CakeType.find_by_code (c : Nat) : Option CakeType :=
  if c = 0 then some .INLINE
  else if c = 1 then some .SHA256
  else if c = 2 then some .PORTAL
  else if c = 3 then some .VTREE
  else if c = 4 then some .DMOUNT
  else if c = 5 then some .EVENT
  else if c = 6 then some .DAG_STATE
  else if c = 7 then some .JSON_WRAP
  else none

/-- `_IS_VTREE` modifier of `CakeType`. -/
def CakeType.is_vtree : CakeType → Bool
  | .VTREE => true
  | .DAG_STATE => true
  | _ => false

/-- `is_portal = is_vtree or _IS_PORTAL in modifiers`. -/
def CakeType.is_portal (t : CakeType) : Bool :=
  t.is_vtree || (t = .PORTAL || t = .DMOUNT)

/-- `_IS_RESOLVED` modifier of `CakeType`. -/
def CakeType.is_resolved : CakeType → Bool
  | .SHA256 => true
  | .EVENT => true
  | .JSON_WRAP => true
  | _ => false

/-- `_header(type, role) = (type.code << 1) | role.code`. -/
def _header (type : CakeType) (role : CakeRole) : Nat :=
  (type.code <<< 1) ||| role.code

/-- `pack_in_bytes(type, role, data) = bytes([header]) + data`. -/
def pack_in_bytes (type : CakeType) (role : CakeRole) (data_bytes : List Nat) :
    List Nat :=
  _header type role :: data_bytes

/-- A Cake value: payload bytes, type, role (structural equality, as in
`Cake.__eq__`). -/
structure Cake where
  _data : List Nat
  type : CakeType
  role : CakeRole
deriving DecidableEq, Repr

def Cake.has_data (c : Cake) : Bool := c.type = CakeType.INLINE

def Cake.data (c : Cake) : Option (List Nat) :=
  if c.has_data then some c._data else none

/-- The `type is not None` branch of `Cake.__init__`: construct from parts;
`none` models the `invalid CAKey` assertion (non-inline payload must be 32
bytes). -/
def Cake.init_parts (data : List Nat) (type : CakeType) (role : CakeRole) :
    Option Cake :=
  if (⟨data, type, role⟩ : Cake).has_data = false ∧ data.length ≠ 32 then none
  else some ⟨data, type, role⟩

/-- Second half of the string branch of `Cake.__init__`: split the decoded
bytes into header byte and payload, look up type and role codes, check the
payload length. `none` models every exception path (bad base-62, empty
decode, unknown code, bad length). -/
def Cake.fromDecoded : Option (List Nat) → Option Cake
  | none => none
  | some [] => none
  | some (header :: rest) =>
    match CakeType.find_by_code (header >>> 1),
        CakeRole.find_by_code (header &&& 1) with
    | some type, some role => Cake.init_parts rest type role
    | _, _ => none

/-- The string branch of `Cake.__init__`. -/
def Cake.fromString (s : List Char) : Option Cake :=
  Cake.fromDecoded (decodeChars alphabet62 s)

/-- `Cake.__str__ = B62.encode(pack_in_bytes(type, role, data))`. -/
def Cake.toString (c : Cake) : List Char :=
  encodeBytes alphabet62 (pack_in_bytes c.type c.role c._data)

/-- `Cake.digest()`: SHA-256 of the payload for inline Cakes, the payload
itself otherwise (`sha` is the external SHA-256). -/
def Cake.digest (sha : List Nat → List Nat) (c : Cake) : List Nat :=
  if c.has_data then sha c._data else c._data

def Cake.is_immutable (c : Cake) : Bool := c.has_data || c.type.is_resolved

/-- `Cake.hash_bytes()`: `none` models the `Not-hash` assertion error. -/
def Cake.hash_bytes (c : Cake) : Option (List Nat) :=
  if c.type.is_resolved then some c._data else none

/-- Well-formed Cake values: byte-valued payload, and the invariant
established by every `Cake.__init__` path (non-inline payload is 32 bytes). -/
def Cake.WF (c : Cake) : Prop :=
  (∀ b ∈ c._data, b < 256) ∧ (c.has_data = false → c._data.length = 32)

theorem _header_lt (type : CakeType) (role : CakeRole) : _header type role < 256 := by
  cases type <;> cases role <;> decide

theorem _header_codes (type : CakeType) (role : CakeRole) :
    CakeType.find_by_code (_header type role >>> 1) = some type ∧
    CakeRole.find_by_code (_header type role &&& 1) = some role := by
  cases type <;> cases role <;> exact ⟨by decide, by decide⟩

theorem fromDecoded_cons (header : Nat) (rest : List Nat) :
    Cake.fromDecoded (some (header :: rest)) =
      match CakeType.find_by_code (header >>> 1),
          CakeRole.find_by_code (header &&& 1) with
      | some type, some role => Cake.init_parts rest type role
      | _, _ => none := rfl

/-- Helper: parsing the base-62 string form of a well-formed Cake recovers
it (shared by the Cake and CakeRack round-trip theorems). -/
theorem fromString_toString (c : Cake) (h : c.WF) :
    Cake.fromString (Cake.toString c) = some c := by
  obtain ⟨hbytes, hlen⟩ := h
  have hall : ∀ b ∈ pack_in_bytes c.type c.role c._data, b < 256 := by
    intro b hb
    rcases List.mem_cons.mp hb with h1 | h1
    · subst h1; exact _header_lt c.type c.role
    · exact hbytes b h1
  have hdec := decodeChars_encodeBytes alphabet62_good _ hall
  show Cake.fromDecoded
    (decodeChars alphabet62 (encodeBytes alphabet62 (pack_in_bytes c.type c.role c._data)))
    = some c
  rw [hdec]
  show Cake.fromDecoded (some (_header c.type c.role :: c._data)) = some c
  rw [fromDecoded_cons, (_header_codes c.type c.role).1, (_header_codes c.type c.role).2]
  show Cake.init_parts c._data c.type c.role = some c
  rw [Cake.init_parts]
  by_cases hhd : c.has_data = false
  · rw [if_neg (by
      intro hcond
      exact hcond.2 (hlen hhd))]
  · rw [if_neg (by
      intro hcond
      exact hhd hcond.1)]

/-- C2: parsing the base-62 string form of a well-formed Cake returns a
structurally equal Cake (`Cake(str(c)) == c`). -/
theorem cake_string_roundtrip (c : Cake) (h : c.WF) :
    Cake.fromString (Cake.toString c) = some c :=
  fromString_toString c h

/-- Witness for `cake_string_roundtrip` at a concrete inline Cake. -/
theorem cake_string_roundtrip_witness :
    (Cake.WF ⟨[1, 2, 3], CakeType.INLINE, CakeRole.SYNAPSE⟩) ∧
    Cake.fromString (Cake.toString ⟨[1, 2, 3], CakeType.INLINE, CakeRole.SYNAPSE⟩) =
      some ⟨[1, 2, 3], CakeType.INLINE, CakeRole.SYNAPSE⟩ :=
  ⟨⟨by decide, by decide⟩,
   cake_string_roundtrip ⟨[1, 2, 3], CakeType.INLINE, CakeRole.SYNAPSE⟩
     ⟨by decide, by decide⟩⟩

/-! ### Stream processing (`process_stream`, `Cake.from_bytes`) -/

/-- The body of the `while` loop of `process_stream`, with explicit fuel
(each iteration consumes at least one byte from `fd`, so `fd.length + 1`
rounds always reach the empty-chunk exit).  State: bytes left, `length`,
`inline_data`, and the bytes fed to the hasher so far.  The `on_chunk`
callback is effect-only and has no pure content. -/
def process_stream_rounds (chunk_size : Nat) :
    Nat → List Nat → Nat → List Nat → List Nat → Nat × List Nat × List Nat
  | 0, _, length, inline_data, hashed => (length, inline_data, hashed)
  | fuel+1, fd, length, inline_data, hashed =>
    let chunk := fd.take chunk_size
    if chunk.length = 0 then (length, inline_data, hashed)
    else
      process_stream_rounds chunk_size fuel (fd.drop chunk_size)
        (length + chunk.length)
        (if length + chunk.length ≤ inline_max_bytes then inline_data ++ chunk
         else inline_data)
        (hashed ++ chunk)

/-- `process_stream(fd)`: returns the digest of the whole stream and the
inline buffer when the total length is at most 32 (`sha` is the external
SHA-256). -/
def process_stream (sha : List Nat → List Nat) (chunk_size : Nat)
    (fd : List Nat) : List Nat × Option (List Nat) :=
  let r := process_stream_rounds chunk_size (fd.length + 1) fd 0 [] []
  (sha r.2.2, if r.1 > inline_max_bytes then none else some r.2.1)

def Cake.from_digest_and_inline_data (digest : List Nat)
    (buffer : Option (List Nat)) (role : CakeRole) : Option Cake :=
  match buffer with
  | some buf =>
    if buf.length ≤ inline_max_bytes then Cake.init_parts buf CakeType.INLINE role
    else Cake.init_parts digest CakeType.SHA256 role
  | none => Cake.init_parts digest CakeType.SHA256 role

def Cake.from_stream (sha : List Nat → List Nat) (fd : List Nat)
    (role : CakeRole) : Option Cake :=
  let r := process_stream sha 65355 fd
  Cake.from_digest_and_inline_data r.1 r.2 role

/-- `Cake.from_bytes(s, role=SYNAPSE)` wraps the bytes in a stream and
delegates. -/
def Cake.from_bytes (sha : List Nat → List Nat) (s : List Nat)
    (role : CakeRole) : Option Cake :=
  Cake.from_stream sha s role

theorem process_stream_small (sha : List Nat → List Nat) (chunk_size : Nat)
    (b : List Nat) (hb : b.length ≤ chunk_size) :
    process_stream sha chunk_size b =
      (sha b, if b.length > inline_max_bytes then none else some b) := by
  cases b with
  | nil =>
    simp [process_stream, process_stream_rounds, inline_max_bytes]
  | cons y ys =>
    have htake : (y :: ys).take chunk_size = y :: ys := List.take_of_length_le hb
    have hdrop : (y :: ys).drop chunk_size = [] := List.drop_eq_nil_of_le hb
    have hne : ((y :: ys).take chunk_size).length ≠ 0 := by
      rw [htake]; simp
    have hrounds : process_stream_rounds chunk_size ((y :: ys).length + 1)
        (y :: ys) 0 [] [] =
        ((y :: ys).length,
         if (y :: ys).length ≤ inline_max_bytes then y :: ys else [],
         y :: ys) := by
      show process_stream_rounds chunk_size (ys.length + 1 + 1) (y :: ys) 0 [] [] = _
      rw [process_stream_rounds]
      simp only [if_neg hne, htake, hdrop, Nat.zero_add, List.nil_append]
      rw [process_stream_rounds]
      simp [List.take_nil]
    simp only [process_stream]
    rw [hrounds]
    by_cases hlen : (y :: ys).length ≤ inline_max_bytes
    · simp only [List.length_cons, inline_max_bytes] at hlen ⊢
      have hcond : ¬ (32 : Nat) < ys.length + 1 := by omega
      rw [if_pos (show ys.length + 1 ≤ 32 by omega), if_neg hcond]
    · simp only [List.length_cons, inline_max_bytes] at hlen ⊢
      have hcond : (32 : Nat) < ys.length + 1 := by omega
      rw [if_neg (show ¬ ys.length + 1 ≤ 32 by omega), if_pos hcond,
        if_pos (show ys.length + 1 > 32 by omega)]

/-- C1: `Cake.from_bytes(b)` inlines payloads of at most 32 bytes and
switches to a SHA-256 Cake at 33 bytes (`hsha` states that the external
SHA-256 returns 32 bytes). -/
theorem from_bytes_inline_boundary (sha : List Nat → List Nat)
    (hsha : ∀ x, (sha x).length = 32) (b : List Nat) :
    (b.length ≤ 32 →
      Cake.from_bytes sha b CakeRole.SYNAPSE =
        some ⟨b, CakeType.INLINE, CakeRole.SYNAPSE⟩ ∧
      (⟨b, CakeType.INLINE, CakeRole.SYNAPSE⟩ : Cake).data = some b) ∧
    (b.length = 33 →
      Cake.from_bytes sha b CakeRole.SYNAPSE =
        some ⟨sha b, CakeType.SHA256, CakeRole.SYNAPSE⟩ ∧
      (⟨sha b, CakeType.SHA256, CakeRole.SYNAPSE⟩ : Cake).has_data = false ∧
      (sha b).length = 32) := by
  constructor
  · intro hle
    have hcs : b.length ≤ 65355 := by omega
    constructor
    · show Cake.from_stream sha b CakeRole.SYNAPSE = _
      rw [Cake.from_stream, process_stream_small sha 65355 b hcs]
      have hnotgt : ¬ b.length > inline_max_bytes := by
        rw [inline_max_bytes]; omega
      simp only [if_neg hnotgt]
      show Cake.from_digest_and_inline_data (sha b) (some b) CakeRole.SYNAPSE = _
      rw [Cake.from_digest_and_inline_data]
      rw [if_pos (show b.length ≤ inline_max_bytes by rw [inline_max_bytes]; omega)]
      rw [Cake.init_parts, if_neg (by
        intro hcond
        simp [Cake.has_data] at hcond)]
    · simp [Cake.data, Cake.has_data]
  · intro h33
    have hcs : b.length ≤ 65355 := by omega
    refine ⟨?_, by simp [Cake.has_data], hsha b⟩
    show Cake.from_stream sha b CakeRole.SYNAPSE = _
    rw [Cake.from_stream, process_stream_small sha 65355 b hcs]
    have hgt : b.length > inline_max_bytes := by rw [inline_max_bytes]; omega
    simp only [if_pos hgt]
    show Cake.from_digest_and_inline_data (sha b) none CakeRole.SYNAPSE = _
    rw [Cake.from_digest_and_inline_data]
    rw [Cake.init_parts, if_neg (by
      intro hcond
      exact hcond.2 (hsha b))]

/-- Witness for `from_bytes_inline_boundary` at a 3-byte and a 33-byte
input, with a concrete 32-byte stand-in for SHA-256. -/
theorem from_bytes_inline_boundary_witness :
    (∀ x : List Nat, ((fun _ => List.replicate 32 0) x).length = 32) ∧
    Cake.from_bytes (fun _ => List.replicate 32 0) [1, 2, 3] CakeRole.SYNAPSE =
      some ⟨[1, 2, 3], CakeType.INLINE, CakeRole.SYNAPSE⟩ ∧
    Cake.from_bytes (fun _ => List.replicate 32 0) (List.replicate 33 7)
        CakeRole.SYNAPSE =
      some ⟨List.replicate 32 0, CakeType.SHA256, CakeRole.SYNAPSE⟩ :=
  ⟨fun _ => rfl,
   ((from_bytes_inline_boundary (fun _ => List.replicate 32 0) (fun _ => rfl)
      [1, 2, 3]).1 (by decide)).1,
   ((from_bytes_inline_boundary (fun _ => List.replicate 32 0) (fun _ => rfl)
      (List.replicate 33 7)).2 (by decide)).1⟩

/-! ### Sharding, `is_it_shard`, ContentAddress -/

/-- `shard_name_int(num) = B36.encode_int(num)`. -/
def shard_name_int (num : Nat) : List Char := encode_int alphabet36 num

/-- `decode_shard(name) = B36.decode_int(name)`; `none` models the decode
exception on characters outside the base-36 alphabet. -/
def decode_shard (name : List Char) : Option Nat := decode_int alphabet36 name

/-- `is_it_shard(shard_name, max_num)`: total over strings — the decode
exception is swallowed by the `try`/`except`, leaving `shard_num = -1`. -/
def is_it_shard (shard_name : List Char) (max_num : Int) : Bool :=
  if shard_name = [] ∨ shard_name.length > 3 then false
  else
    let shard_num : Int :=
      match decode_shard (shard_name.map Char.toLower) with
      | some n => (n : Int)
      | none => -1
    decide (0 ≤ shard_num ∧ shard_num < max_num)

/-- `shard_num(hash_bytes, base) = (b1*256 + b2) % base` from the first two
bytes; `none` models the unpacking error on fewer than two bytes. -/
def shard_num (hash_bytes : List Nat) (base : Nat) : Option Nat :=
  match hash_bytes with
  | b1 :: b2 :: _ => some ((b1 * 256 + b2) % base)
  | _ => none

/-- A ContentAddress: the 32-byte hash, its lowercase base-36 id, and the
precomputed shard name (`ContentAddress.__init__`). -/
structure ContentAddress where
  hash_bytes : List Nat
  _id : List Char
  shard_name : List Char
deriving DecidableEq, Repr

/-- The `isinstance(h, Cake)` branch of `ContentAddress.__init__`:
`hash_bytes = h.hash_bytes()` (which asserts the Cake type is resolved),
`_id = B36.encode(hash_bytes)`, then the shard name. -/
def ContentAddress.of_cake (c : Cake) : Option ContentAddress :=
  match c.hash_bytes with
  | none => none
  | some h =>
    match shard_num h MAX_NUM_OF_SHARDS with
    | none => none
    | some sn => some ⟨h, encodeBytes alphabet36 h, shard_name_int sn⟩

/-- C4 counterexample: for an INLINE Cake, `ContentAddress` construction
does not succeed — `Cake.hash_bytes()` raises for every non-resolved type,
INLINE included, so no ContentAddress is derived (the claim says
construction succeeds and digests the payload). -/
theorem content_address_inline_counterexample :
    ContentAddress.of_cake ⟨[1, 2, 3], CakeType.INLINE, CakeRole.SYNAPSE⟩ = none := rfl

/-- C4 (amended): a ContentAddress is derivable exactly from resolved-type
Cakes.  For every Cake whose type is not resolved — INLINE with a payload
of any length, and the portal types PORTAL, VTREE, DMOUNT, DAG_STATE — the
construction fails, because `Cake.hash_bytes()` raises; for a resolved-type
Cake with its (invariant) 32-byte payload it succeeds, with that payload as
the 32-byte hash. -/
theorem content_address_from_cake (c : Cake) :
    (c.type.is_resolved = false → ContentAddress.of_cake c = none) ∧
    (c.type.is_resolved = true → c._data.length = 32 →
      ∃ ca, ContentAddress.of_cake c = some ca ∧ ca.hash_bytes = c._data ∧
        ca.hash_bytes.length = 32) := by
  constructor
  · intro hres
    simp [ContentAddress.of_cake, Cake.hash_bytes, hres]
  · intro hres hlen
    have hhb : c.hash_bytes = some c._data := by
      simp [Cake.hash_bytes, hres]
    obtain ⟨b1, b2, t2, hd⟩ : ∃ b1 b2 t2, c._data = b1 :: b2 :: t2 := by
      cases hdd : c._data with
      | nil => rw [hdd] at hlen; simp at hlen
      | cons x t =>
        cases t with
        | nil => rw [hdd] at hlen; simp at hlen
        | cons y t2 => exact ⟨x, y, t2, rfl⟩
    refine ⟨⟨b1 :: b2 :: t2, encodeBytes alphabet36 (b1 :: b2 :: t2),
      shard_name_int ((b1 * 256 + b2) % MAX_NUM_OF_SHARDS)⟩, ?_, hd.symm,
      by rw [← hd]; exact hlen⟩
    rw [ContentAddress.of_cake, hhb, hd]
    rfl

/-- Witness for `content_address_from_cake`: failure at a 3-byte INLINE
Cake and at a PORTAL Cake, success at a concrete SHA256 Cake. -/
theorem content_address_from_cake_witness :
    ContentAddress.of_cake ⟨[1, 2, 3], CakeType.INLINE, CakeRole.SYNAPSE⟩
      = none ∧
    ContentAddress.of_cake
      ⟨List.replicate 32 0, CakeType.PORTAL, CakeRole.SYNAPSE⟩ = none ∧
    ∃ ca, ContentAddress.of_cake
        ⟨List.replicate 32 1, CakeType.SHA256, CakeRole.SYNAPSE⟩ = some ca ∧
      ca.hash_bytes = List.replicate 32 1 ∧ ca.hash_bytes.length = 32 :=
  ⟨(content_address_from_cake
      ⟨[1, 2, 3], CakeType.INLINE, CakeRole.SYNAPSE⟩).1 rfl,
   (content_address_from_cake
      ⟨List.replicate 32 0, CakeType.PORTAL, CakeRole.SYNAPSE⟩).1 rfl,
   (content_address_from_cake
      ⟨List.replicate 32 1, CakeType.SHA256, CakeRole.SYNAPSE⟩).2 rfl (by decide)⟩

/-! ### `transform_portal` -/

/-- `Cake.transform_portal(role?, type?)`: asserts the current type is a
portal (`none` models the assertion failure), defaults missing fields to
the current ones, returns `self` when nothing changes, otherwise re-packs
the same payload under the new type and role. -/
def Cake.transform_portal (c : Cake) (role : Option CakeRole)
    (type : Option CakeType) : Option Cake :=
  if c.type.is_portal = false then none
  else
    let type := type.getD c.type
    let role := role.getD c.role
    if type = c.type ∧ role = c.role then some c
    else Cake.init_parts c._data type role

/-- C5 counterexample: `transform_portal` does not assert that the target
type is a portal — transforming a PORTAL Cake to the non-portal type SHA256
succeeds (the claim says it fails). -/
theorem transform_portal_counterexample :
    Cake.transform_portal ⟨List.replicate 32 0, CakeType.PORTAL, CakeRole.SYNAPSE⟩
        none (some CakeType.SHA256) =
      some ⟨List.replicate 32 0, CakeType.SHA256, CakeRole.SYNAPSE⟩ := by decide

/-- C5 (amended): `transform_portal` fails exactly when the current type
is not a portal; when it is, it returns a Cake with the same 32-byte data
and the requested type and role, whether or not the target type is a
portal. -/
theorem transform_portal_spec (c : Cake) (role : Option CakeRole)
    (type : Option CakeType) (hlen : c._data.length = 32) :
    (c.type.is_portal = false → c.transform_portal role type = none) ∧
    (c.type.is_portal = true →
      ∃ c2, c.transform_portal role type = some c2 ∧ c2._data = c._data ∧
        c2.type = type.getD c.type ∧ c2.role = role.getD c.role) := by
  constructor
  · intro hnp
    simp [Cake.transform_portal, hnp]
  · intro hp
    rw [Cake.transform_portal, if_neg (by rw [hp]; simp)]
    by_cases hsame : type.getD c.type = c.type ∧ role.getD c.role = c.role
    · refine ⟨c, ?_, rfl, hsame.1.symm, hsame.2.symm⟩
      simp only [if_pos hsame]
    · refine ⟨⟨c._data, type.getD c.type, role.getD c.role⟩, ?_, rfl, rfl, rfl⟩
      simp only [if_neg hsame]
      rw [Cake.init_parts, if_neg (by
        intro hcond
        exact hcond.2 hlen)]

/-- Witness for `transform_portal_spec`: a PORTAL Cake re-issued as a VTREE
NEURON Cake. -/
theorem transform_portal_spec_witness :
    (List.replicate 32 (0 : Nat)).length = 32 ∧
    ∃ c2, Cake.transform_portal
        ⟨List.replicate 32 0, CakeType.PORTAL, CakeRole.SYNAPSE⟩
        (some CakeRole.NEURON) (some CakeType.VTREE) = some c2 ∧
      c2._data = List.replicate 32 0 ∧ c2.type = CakeType.VTREE ∧
      c2.role = CakeRole.NEURON :=
  ⟨by decide,
   (transform_portal_spec ⟨List.replicate 32 0, CakeType.PORTAL, CakeRole.SYNAPSE⟩
     (some CakeRole.NEURON) (some CakeType.VTREE) (by decide)).2 rfl⟩

/-- C10: `is_it_shard` is a total Boolean function of the input string; it
returns `true` exactly for nonempty strings of at most 3 characters whose
lowercased base-36 decoding is below `max_num`, and `false` everywhere else
(in particular on every undecodable input). -/
theorem is_it_shard_total (s : List Char) (m : Int) :
    is_it_shard s m = true ↔
      (s ≠ [] ∧ s.length ≤ 3 ∧
       ∃ n : Nat, decode_shard (s.map Char.toLower) = some n ∧ (n : Int) < m) := by
  by_cases hpre : s = [] ∨ s.length > 3
  · have hfalse : is_it_shard s m = false := by
      rw [is_it_shard, if_pos hpre]
    rw [hfalse]
    constructor
    · intro h
      exact absurd h Bool.false_ne_true
    · intro ⟨h1, h2, _⟩
      rcases hpre with h | h
      · exact absurd h h1
      · omega
  · cases hdec : decode_shard (s.map Char.toLower) with
    | none =>
      rw [is_it_shard, if_neg hpre]
      simp only [hdec, decide_eq_true_eq]
      constructor
      · intro ⟨h0, _⟩
        omega
      · intro ⟨_, _, n, hn, _⟩
        exact Option.noConfusion hn
    | some n =>
      rw [is_it_shard, if_neg hpre]
      simp only [hdec, decide_eq_true_eq]
      push_neg at hpre
      constructor
      · intro ⟨_, hlt⟩
        exact ⟨hpre.1, by omega, n, rfl, hlt⟩
      · intro ⟨_, _, n', hn', hlt⟩
        have hnn := Option.some_inj.mp hn'
        constructor
        · omega
        · omega

/-! ### C8: portal Cakes encode to 44 characters -/

/-- C8: every portal Cake — 32-byte payload, portal type (PORTAL, VTREE,
DMOUNT or DAG_STATE), any role — has a base-62 string form of exactly 44
characters. -/
theorem portal_cake_string_length (data : List Nat) (type : CakeType)
    (role : CakeRole) (h32 : data.length = 32)
    (hbytes : ∀ b ∈ data, b < 256) (hport : type.is_portal = true) :
    (Cake.toString ⟨data, type, role⟩).length = 44 := by
  have hhd : 4 ≤ _header type role ∧ _header type role ≤ 13 := by
    revert hport
    cases type <;> cases role <;> decide
  have hhd0 : _header type role ≠ 0 := by omega
  show (encodeBytes alphabet62 (_header type role :: data)).length = 44
  rw [encodeBytes_cons, if_neg hhd0, List.length_map]
  show (digitsLE alphabet62.length
    (ofDigitsBE 256 (_header type role :: data))).reverse.length = 44
  rw [List.length_reverse]
  have hA : alphabet62.length = 62 := rfl
  rw [hA]
  have hval : ofDigitsBE 256 (_header type role :: data) =
      ofDigitsLE 256 data.reverse + 256 ^ 32 * _header type role := by
    rw [ofDigitsBE, List.reverse_cons, ofDigitsLE_append, List.length_reverse, h32]
    have : ofDigitsLE 256 [_header type role] = _header type role := by
      simp [ofDigitsLE]
    rw [this]
  have hV : ofDigitsLE 256 data.reverse < 256 ^ 32 := by
    have h' := ofDigitsLE_lt 256 (by omega) data.reverse
      (fun d hd => hbytes d (List.mem_reverse.mp hd))
    rwa [List.length_reverse, h32] at h'
  have hlow : 256 ^ 32 * 4 ≤ 256 ^ 32 * _header type role :=
    Nat.mul_le_mul_left _ hhd.1
  have hhigh : 256 ^ 32 * _header type role ≤ 256 ^ 32 * 13 :=
    Nat.mul_le_mul_left _ hhd.2
  have hp1 : (62 : Nat) ^ 43 ≤ 4 * 256 ^ 32 := by norm_num
  have hp2 : (14 : Nat) * 256 ^ 32 ≤ 62 ^ 44 := by norm_num
  have h1 : (62 : Nat) ^ 43 ≤ ofDigitsBE 256 (_header type role :: data) := by
    rw [hval]; omega
  have h2 : ofDigitsBE 256 (_header type role :: data) < 62 ^ (43 + 1) := by
    have : (62 : Nat) ^ (43 + 1) = 62 ^ 44 := by norm_num
    rw [hval, this]; omega
  exact digitsLE_length 62 (by omega) 43 _ h1 h2

/-- Witness for `portal_cake_string_length` at a concrete PORTAL Cake. -/
theorem portal_cake_string_length_witness :
    (List.replicate 32 (0 : Nat)).length = 32 ∧
    (Cake.toString ⟨List.replicate 32 0, CakeType.PORTAL, CakeRole.SYNAPSE⟩).length
      = 44 :=
  ⟨by decide,
   portal_cake_string_length (List.replicate 32 0) CakeType.PORTAL CakeRole.SYNAPSE
     (by decide) (by decide) (by decide)⟩

/-! ### C6: resolver loop guard (`resolve_cake_stack`, lite/dal.py) -/

/-- Outcome of `resolve_cake_stack`: a resolved chain, the `cake loop?`
assertion failure, a failed external portal lookup (`.one()` raising), or
fuel exhaustion — the last is proven unreachable. -/
inductive ResolveOutcome
  | resolved (stack : List Cake)
  | loopFail (stack : List Cake)
  | lookupFail (stack : List Cake)
  | outOfFuel
deriving DecidableEq, Repr

/-- The `while True` loop of `resolve_cake_stack`, with explicit fuel.  The
external relation `portal Cake → latest target` is the `lookup` parameter
(`none` models `.one()` finding no row). -/
def resolveRounds (lookup : Cake → Option Cake) :
    Nat → List Cake → Cake → ResolveOutcome
  | 0, _, _ => .outOfFuel
  | fuel+1, cake_stack, cake =>
    let cake_loop := cake_stack.contains cake
    let stack := cake_stack ++ [cake]
    if cake.is_immutable then .resolved stack
    else if cake_loop || decide (stack.length > 10) then .loopFail stack
    else
      match lookup cake with
      | none => .lookupFail stack
      | some next => resolveRounds lookup fuel stack next

/-- `resolve_cake_stack(session_factory, cake)`: 12 rounds of fuel always
suffice (at most 11 iterations can run before the guard fires). -/
def resolve_cake_stack (lookup : Cake → Option Cake) (cake : Cake) :
    ResolveOutcome :=
  resolveRounds lookup 12 [] cake

theorem resolveRounds_spec (lookup : Cake → Option Cake) :
    ∀ fuel (stack : List Cake) (cake : Cake),
      stack.length ≤ 10 → 11 - stack.length < fuel →
      stack.Nodup → (∀ x ∈ stack, x.is_immutable = false) →
      (resolveRounds lookup fuel stack cake ≠ .outOfFuel ∧
       (∀ g, 11 - stack.length < g →
         resolveRounds lookup g stack cake = resolveRounds lookup fuel stack cake) ∧
       (∀ s2, resolveRounds lookup fuel stack cake = .resolved s2 →
         s2 ≠ [] ∧ s2.length ≤ 11 ∧ s2.Nodup ∧
         (∀ x ∈ s2.dropLast, x.is_immutable = false) ∧
         (∃ l, s2.getLast? = some l ∧ l.is_immutable = true))) := by
  intro fuel
  induction fuel with
  | zero =>
    intro stack cake hlen hfuel _ _
    omega
  | succ fuel ih =>
    intro stack cake hlen hfuel hnodup hmut
    by_cases himm : cake.is_immutable = true
    · have heval : ∀ g', resolveRounds lookup (g' + 1) stack cake =
          .resolved (stack ++ [cake]) := by
        intro g'
        rw [resolveRounds]
        simp only [himm, if_true]
      refine ⟨by rw [heval fuel]; intro h; exact ResolveOutcome.noConfusion h, ?_, ?_⟩
      · intro g hg
        obtain ⟨g', rfl⟩ : ∃ g', g = g' + 1 := by
          cases g with
          | zero => omega
          | succ g' => exact ⟨g', rfl⟩
        rw [heval g', heval fuel]
      · intro s2 hs2
        rw [heval fuel] at hs2
        have hs2eq : s2 = stack ++ [cake] := (ResolveOutcome.resolved.injEq _ _).mp hs2.symm
        subst hs2eq
        refine ⟨by simp, by rw [List.length_append, List.length_singleton]; omega,
          ?_, ?_, ?_⟩
        · rw [List.nodup_append]
          refine ⟨hnodup, List.nodup_singleton _, ?_⟩
          intro x hx hx1
          have : x = cake := by simpa using hx1
          subst this
          rw [hmut x hx] at himm
          exact Bool.false_ne_true himm
        · intro x hx
          rw [List.dropLast_concat] at hx
          exact hmut x hx
        · exact ⟨cake, List.getLast?_concat _, himm⟩
    · have himm' : cake.is_immutable = false := by
        cases h : cake.is_immutable
        · rfl
        · exact absurd h himm
      by_cases hguard : stack.contains cake || decide ((stack ++ [cake]).length > 10)
      · have heval : ∀ g', resolveRounds lookup (g' + 1) stack cake =
            .loopFail (stack ++ [cake]) := by
          intro g'
          rw [resolveRounds]
          simp only [himm', Bool.false_eq_true, if_false, hguard, if_true]
        refine ⟨by rw [heval fuel]; intro h; exact ResolveOutcome.noConfusion h, ?_, ?_⟩
        · intro g hg
          obtain ⟨g', rfl⟩ : ∃ g', g = g' + 1 := by
            cases g with
            | zero => omega
            | succ g' => exact ⟨g', rfl⟩
          rw [heval g', heval fuel]
        · intro s2 hs2
          rw [heval fuel] at hs2
          exact ResolveOutcome.noConfusion hs2
      · cases hlk : lookup cake with
        | none =>
          have heval : ∀ g', resolveRounds lookup (g' + 1) stack cake =
              .lookupFail (stack ++ [cake]) := by
            intro g'
            rw [resolveRounds]
            simp only [himm', Bool.false_eq_true, if_false, hguard, hlk]
          refine ⟨by rw [heval fuel]; intro h; exact ResolveOutcome.noConfusion h, ?_, ?_⟩
          · intro g hg
            obtain ⟨g', rfl⟩ : ∃ g', g = g' + 1 := by
              cases g with
              | zero => omega
              | succ g' => exact ⟨g', rfl⟩
            rw [heval g', heval fuel]
          · intro s2 hs2
            rw [heval fuel] at hs2
            exact ResolveOutcome.noConfusion hs2
        | some next =>
          have heval : ∀ g', resolveRounds lookup (g' + 1) stack cake =
              resolveRounds lookup g' (stack ++ [cake]) next := by
            intro g'
            rw [resolveRounds]
            simp only [himm', Bool.false_eq_true, if_false, hguard, hlk]
          have hnotin : ¬ stack.contains cake := by
            intro hc
            exact hguard (by rw [hc]; rfl)
          have hlen' : (stack ++ [cake]).length ≤ 10 := by
            by_contra hgt
            exact hguard (by
              rw [Bool.or_eq_true, decide_eq_true_eq]
              right
              omega)
          rw [List.length_append, List.length_singleton] at hlen'
          have hnodup' : (stack ++ [cake]).Nodup := by
            rw [List.nodup_append]
            refine ⟨hnodup, List.nodup_singleton _, ?_⟩
            intro x hx hx1
            have hxc : x = cake := by simpa using hx1
            subst hxc
            exact hnotin (List.elem_iff.mpr hx)
          have hmut' : ∀ x ∈ stack ++ [cake], x.is_immutable = false := by
            intro x hx
            rcases List.mem_append.mp hx with h | h
            · exact hmut x h
            · have hxc : x = cake := by simpa using h
              subst hxc
              exact himm'
          have hfuel' : 11 - (stack ++ [cake]).length < fuel := by
            rw [List.length_append, List.length_singleton]
            omega
          obtain ⟨ihne, ihg, ihres⟩ := ih (stack ++ [cake]) next
            (by rw [List.length_append, List.length_singleton]; omega)
            hfuel' hnodup' hmut'
          refine ⟨by rw [heval fuel]; exact ihne, ?_, ?_⟩
          · intro g hg
            obtain ⟨g', rfl⟩ : ∃ g', g = g' + 1 := by
              cases g with
              | zero => omega
              | succ g' => exact ⟨g', rfl⟩
            rw [heval g', heval fuel]
            exact ihg g' (by
              rw [List.length_append, List.length_singleton]
              omega)
          · intro s2 hs2
            rw [heval fuel] at hs2
            exact ihres s2 hs2

/-- C6: for every external portal-lookup relation, `resolve_cake_stack`
terminates — the fuel bound of 12 rounds is never hit and every larger fuel
gives the same outcome — and a successful resolution is a duplicate-free
chain of at most 11 Cakes (at most 10 lookups) whose last element is the
first immutable Cake reached (all earlier ones are mutable). -/
theorem resolve_cake_stack_guard (lookup : Cake → Option Cake) (cake : Cake) :
    resolve_cake_stack lookup cake ≠ .outOfFuel ∧
    (∀ g, 11 < g → resolveRounds lookup g [] cake = resolve_cake_stack lookup cake) ∧
    (∀ s2, resolve_cake_stack lookup cake = .resolved s2 →
      s2 ≠ [] ∧ s2.length ≤ 11 ∧ s2.Nodup ∧
      (∀ x ∈ s2.dropLast, x.is_immutable = false) ∧
      (∃ l, s2.getLast? = some l ∧ l.is_immutable = true)) := by
  obtain ⟨h1, h2, h3⟩ := resolveRounds_spec lookup 12 [] cake (by simp) (by simp)
    List.nodup_nil (by simp)
  exact ⟨h1, fun g hg => h2 g (by simpa using hg), fun s2 hs2 => by
    obtain ⟨a, b, c, d, e⟩ := h3 s2 hs2
    exact ⟨a, by simpa using b, c, d, e⟩⟩

/-- Witness for `resolve_cake_stack_guard`: an immutable Cake resolves to
the singleton chain containing itself, under the empty lookup relation. -/
theorem resolve_cake_stack_guard_witness :
    resolve_cake_stack (fun _ => none) ⟨[], CakeType.INLINE, CakeRole.SYNAPSE⟩ =
      ResolveOutcome.resolved [(⟨[], CakeType.INLINE, CakeRole.SYNAPSE⟩ : Cake)] ∧
    ([⟨[], CakeType.INLINE, CakeRole.SYNAPSE⟩] : List Cake) ≠ [] ∧
    ([⟨[], CakeType.INLINE, CakeRole.SYNAPSE⟩] : List Cake).length ≤ 11 := by
  refine ⟨by decide, ?_⟩
  obtain ⟨-, -, h3⟩ := resolve_cake_stack_guard (fun _ => none)
    ⟨[], CakeType.INLINE, CakeRole.SYNAPSE⟩
  obtain ⟨a, b, -⟩ := h3 [(⟨[], CakeType.INLINE, CakeRole.SYNAPSE⟩ : Cake)] (by decide)
  exact ⟨a, b⟩

/-! ### C9: SaltedSha parsing -/

/-- Modelled from the spec: the standard base64 alphabet of Python's
`base64.b64decode` (a stdlib external): `A-Za-z0-9+/`. -/
def b64alphabet : List Char :=
  charRange 65 26 ++ charRange 97 26 ++ charRange 48 10 ++ ['+', '/']

/-- Modelled from the spec: `base64.b64decode` — four-character groups of
six-bit values, the final group optionally padded with `=`; `none` models
the decode exception on malformed input. -/
def b64decode : List Char → Option (List Nat)
  | [] => some []
  | c1 :: c2 :: c3 :: c4 :: rest =>
    match charIndex b64alphabet c1, charIndex b64alphabet c2 with
    | some d1, some d2 =>
      if c3 = '=' ∧ c4 = '=' ∧ rest = [] then
        some [d1 * 4 + d2 / 16]
      else
        match charIndex b64alphabet c3 with
        | some d3 =>
          if c4 = '=' ∧ rest = [] then
            some [d1 * 4 + d2 / 16, (d2 % 16) * 16 + d3 / 4]
          else
            match charIndex b64alphabet c4, b64decode rest with
            | some d4, some bs =>
              some ((d1 * 4 + d2 / 16) :: ((d2 % 16) * 16 + d3 / 4) ::
                ((d3 % 4) * 64 + d4) :: bs)
            | _, _ => none
        | none => none
    | _, _ => none
  | _ => none

/-- `_SSHA_MARK = "\x7bSSHA\x7d"` (braces written via `Char.ofNat`). -/
def _SSHA_MARK : List Char := [Char.ofNat 123, 'S', 'S', 'H', 'A', Char.ofNat 125]

structure SaltedSha where
  digest : List Nat
  salt : List Nat
deriving DecidableEq, Repr

/-- The string branch of `SaltedSha.__init__`: require the exact mark as
prefix, base64-decode the remainder, split it at byte 20 into digest and
salt.  `none` models the `cannot init` assertion and decode errors. -/
def SaltedSha.fromString (s : List Char) : Option SaltedSha :=
  if _SSHA_MARK = s.take _SSHA_MARK.length then
    (b64decode (s.drop _SSHA_MARK.length)).map
      (fun challenge_bytes => ⟨challenge_bytes.take 20, challenge_bytes.drop 20⟩)
  else none

/-- C9 counterexample: the code never checks that the decoded payload is 24
bytes.  The bare mark `"\x7bSSHA\x7d"` has an empty payload (0 bytes, not 24),
yet parsing succeeds with an empty digest and salt — the claim says it must
fail. -/
theorem salted_sha_counterexample :
    SaltedSha.fromString _SSHA_MARK = some ⟨[], []⟩ ∧
    b64decode (_SSHA_MARK.drop _SSHA_MARK.length) = some [] ∧
    ([] : List Nat).length ≠ 24 := ⟨by decide, by decide, by decide⟩

/-- C9 (amended): parsing a SaltedSha fails exactly when the string does not
start with the `\x7bSSHA\x7d` mark or the remainder is not valid base64; any
payload length is accepted, with the first 20 bytes as digest and the rest
as salt. -/
theorem salted_sha_parse (s : List Char) :
    (_SSHA_MARK ≠ s.take _SSHA_MARK.length → SaltedSha.fromString s = none) ∧
    (∀ cb, _SSHA_MARK = s.take _SSHA_MARK.length →
      b64decode (s.drop _SSHA_MARK.length) = some cb →
      SaltedSha.fromString s = some ⟨cb.take 20, cb.drop 20⟩) ∧
    (_SSHA_MARK = s.take _SSHA_MARK.length →
      b64decode (s.drop _SSHA_MARK.length) = none →
      SaltedSha.fromString s = none) := by
  refine ⟨?_, ?_, ?_⟩
  · intro hne
    rw [SaltedSha.fromString, if_neg hne]
  · intro cb hpre hdec
    rw [SaltedSha.fromString, if_pos hpre, hdec]
    rfl
  · intro hpre hdec
    rw [SaltedSha.fromString, if_pos hpre, hdec]
    rfl

/-- Witness for `salted_sha_parse`: `"\x7bSSHA\x7dAAAA"` parses to three zero
digest bytes and an empty salt. -/
theorem salted_sha_parse_witness :
    SaltedSha.fromString (_SSHA_MARK ++ ['A', 'A', 'A', 'A']) =
      some ⟨[0, 0, 0], []⟩ :=
  (salted_sha_parse (_SSHA_MARK ++ ['A', 'A', 'A', 'A'])).2.1 [0, 0, 0]
    (by decide) (by decide)

/-! ### CakeRack: sorted name-to-Cake mapping, merge -/

/-- Lexicographic string order on names (Python's `str` comparison used by
`sorted`/`list.sort`), on code points. -/
def strLe : List Char → List Char → Bool
  | [], _ => true
  | _ :: _, [] => false
  | x :: xs, y :: ys =>
    if x.toNat < y.toNat then true
    else if y.toNat < x.toNat then false
    else strLe xs ys

def strle (a b : List Char) : Prop := strLe a b = true

instance : DecidableRel strle :=
  fun a b => inferInstanceAs (Decidable (strLe a b = true))

theorem strLe_total : ∀ a b, strle a b ∨ strle b a := by
  intro a
  induction a with
  | nil => intro b; left; rfl
  | cons x xs ih =>
    intro b
    cases b with
    | nil => right; rfl
    | cons y ys =>
      show strLe (x :: xs) (y :: ys) = true ∨ strLe (y :: ys) (x :: xs) = true
      rw [strLe, strLe]
      rcases Nat.lt_trichotomy x.toNat y.toNat with h | h | h
      · left
        rw [if_pos h]
      · rw [if_neg (by omega), if_neg (by omega), if_neg (by omega), if_neg (by omega)]
        exact ih ys
      · right
        rw [if_pos h]

theorem strLe_trans : ∀ a b c, strle a b → strle b c → strle a c := by
  intro a
  induction a with
  | nil => intro b c _ _; rfl
  | cons x xs ih =>
    intro b c hab hbc
    cases b with
    | nil => exact absurd hab (by rw [strle, strLe]; simp)
    | cons y ys =>
      cases c with
      | nil => exact absurd hbc (by rw [strle, strLe]; simp)
      | cons z zs =>
        rw [strle, strLe] at hab hbc ⊢
        rcases Nat.lt_trichotomy x.toNat z.toNat with h | h | h
        · rw [if_pos h]
        · rw [if_neg (by omega), if_neg (by omega)]
          rcases Nat.lt_trichotomy x.toNat y.toNat with hxy | hxy | hxy
          · rcases Nat.lt_trichotomy y.toNat z.toNat with hyz | hyz | hyz
            · omega
            · omega
            · rw [if_neg (by omega), if_pos (by omega)] at hbc
              exact absurd hbc (by simp)
          · rcases Nat.lt_trichotomy y.toNat z.toNat with hyz | hyz | hyz
            · omega
            · rw [if_neg (by omega), if_neg (by omega)] at hab
              rw [if_neg (by omega), if_neg (by omega)] at hbc
              exact ih ys zs hab hbc
            · rw [if_neg (by omega), if_pos (by omega)] at hbc
              exact absurd hbc (by simp)
          · rw [if_neg (by omega), if_pos (by omega)] at hab
            exact absurd hab (by simp)
        · exfalso
          rcases Nat.lt_trichotomy y.toNat z.toNat with hyz | hyz | hyz
          · rcases Nat.lt_trichotomy x.toNat y.toNat with hxy | hxy | hxy
            · omega
            · omega
            · rw [if_neg (by omega), if_pos (by omega)] at hab
              exact absurd hab (by simp)
          · rcases Nat.lt_trichotomy x.toNat y.toNat with hxy | hxy | hxy
            · omega
            · omega
            · rw [if_neg (by omega), if_pos (by omega)] at hab
              exact absurd hab (by simp)
          · rw [if_neg (by omega), if_pos (by omega)] at hbc
            exact absurd hbc (by simp)

instance : IsTotal (List Char) strle := ⟨strLe_total⟩

instance : IsTrans (List Char) strle := ⟨strLe_trans⟩

/-- `PatchAction`: `update = +1`, `delete = -1`. -/
inductive PatchAction
  | update
  | delete
deriving DecidableEq, Repr

/-- A CakeRack: the underlying `store` dict as an association list (name to
optional Cake).  Distinct keys mirror the Python dict. -/
structure CakeRack where
  store : List (List Char × Option Cake)
deriving DecidableEq, Repr

/-- `CakeRack.keys()`: names of the store, sorted. -/
def CakeRack.keys (r : CakeRack) : List (List Char) :=
  List.insertionSort strle (r.store.map Prod.fst)

/-- `k in rack` (membership in the store dict). -/
def CakeRack.hasKey (r : CakeRack) (k : List Char) : Bool :=
  (List.lookup k r.store).isSome

/-- `CakeRack.is_neuron(k)`: the stored value is null, or its role is
NEURON; `none` models the KeyError on a missing name. -/
def CakeRack.is_neuron (r : CakeRack) (k : List Char) : Option Bool :=
  match List.lookup k r.store with
  | none => none
  | some none => some true
  | some (some c) => some (decide (c.role = CakeRole.NEURON))

/-- The sorted, deduplicated union of key sets iterated by `merge`:
`sorted(list(set(self.keys() + previous.keys())))`. -/
def mergeKeys (new prev : CakeRack) : List (List Char) :=
  List.insertionSort strle ((new.keys ++ prev.keys).dedup)

/-- The body of the `for k in ...` loop of `CakeRack.merge`, embedded from
the source's control flow (`continue` becomes the empty patch list). -/
def mergePatchesAt (new prev : CakeRack) (k : List Char) :
    List (PatchAction × List Char × Option Cake) :=
  if new.hasKey k = false ∧ prev.hasKey k = true then
    [(PatchAction.delete, k, none)]
  else
    match List.lookup k new.store with
    | none => []
    | some v =>
      if new.hasKey k = true ∧ prev.hasKey k = false then
        [(PatchAction.update, k, v)]
      else
        match List.lookup k prev.store, new.is_neuron k, prev.is_neuron k with
        | some prev_v, some neuron, some prev_neuron =>
          if v ≠ prev_v then
            if neuron = true ∧ prev_neuron = true then []
            else if prev_neuron = neuron then [(PatchAction.update, k, v)]
            else [(PatchAction.delete, k, none), (PatchAction.update, k, v)]
          else []
        | _, _, _ => []

/-- `CakeRack.merge(previous)`: the lazily yielded patch sequence, as the
concatenation of the per-name patches in sorted key order. -/
def CakeRack.merge (new prev : CakeRack) :
    List (PatchAction × List Char × Option Cake) :=
  (mergeKeys new prev).flatMap (mergePatchesAt new prev)

/-- Written from the spec's words (§4.6): "neuron-like" at `k` means
`rack[k]` is null or has role NEURON. -/
def spec_neuron_like (r : CakeRack) (k : List Char) : Bool :=
  match List.lookup k r.store with
  | some none => true
  | some (some c) => decide (c.role = CakeRole.NEURON)
  | none => false

/-- Written from the spec's six-row merge table (§4.6), row by row, to be
compared with the source-derived `mergePatchesAt`. -/
def merge_table_row (new prev : CakeRack) (k : List Char) :
    List (PatchAction × List Char × Option Cake) :=
  if new.hasKey k = false ∧ prev.hasKey k = true then
    [(PatchAction.delete, k, none)]
  else if new.hasKey k = true ∧ prev.hasKey k = false then
    [(PatchAction.update, k, (List.lookup k new.store).getD none)]
  else if (List.lookup k new.store).getD none = (List.lookup k prev.store).getD none then
    []
  else if spec_neuron_like new k = true ∧ spec_neuron_like prev k = true then
    []
  else if spec_neuron_like new k = spec_neuron_like prev k then
    [(PatchAction.update, k, (List.lookup k new.store).getD none)]
  else
    [(PatchAction.delete, k, none),
     (PatchAction.update, k, (List.lookup k new.store).getD none)]

/-- Order between adjacent patches: strictly ascending names, except that a
delete immediately precedes an update for the same name. -/
def patchOrder (p q : PatchAction × List Char × Option Cake) : Prop :=
  (strle p.2.1 q.2.1 ∧ p.2.1 ≠ q.2.1) ∨
  (p.2.1 = q.2.1 ∧ p.1 = PatchAction.delete ∧ q.1 = PatchAction.update)

theorem lookup_isSome_of_mem_fst {β : Type} (k : List Char) :
    ∀ l : List (List Char × β), k ∈ l.map Prod.fst →
      (List.lookup k l).isSome = true := by
  intro l
  induction l with
  | nil => intro h; simp at h
  | cons p rest ih =>
    intro h
    obtain ⟨k', v⟩ := p
    rw [List.lookup_cons]
    cases hbeq : k == k' with
    | true => rfl
    | false =>
      show (List.lookup k rest).isSome = true
      apply ih
      rw [List.map_cons] at h
      rcases List.mem_cons.mp h with h1 | h1
      · exfalso
        simp only at h1
        subst h1
        simp at hbeq
      · exact h1

theorem is_neuron_eq_spec (r : CakeRack) (k : List Char) (v : Option Cake)
    (h : List.lookup k r.store = some v) :
    r.is_neuron k = some (spec_neuron_like r k) := by
  rw [CakeRack.is_neuron, spec_neuron_like, h]
  cases v with
  | none => rfl
  | some c => rfl

theorem lookup_of_hasKey (r : CakeRack) (k : List Char)
    (h : r.hasKey k = true) : ∃ v, List.lookup k r.store = some v := by
  rw [CakeRack.hasKey] at h
  cases hl : List.lookup k r.store with
  | none => rw [hl] at h; simp at h
  | some v => exact ⟨v, rfl⟩

/-- The source loop body agrees with the spec's six-row table at every name
of the union. -/
theorem mergePatchesAt_eq_table (new prev : CakeRack) (k : List Char)
    (hk : new.hasKey k = true ∨ prev.hasKey k = true) :
    mergePatchesAt new prev k = merge_table_row new prev k := by
  cases hv : List.lookup k new.store with
  | none =>
    cases hpv : List.lookup k prev.store with
    | none =>
      exfalso
      rcases hk with h | h <;> rw [CakeRack.hasKey] at h
      · rw [hv] at h; simp at h
      · rw [hpv] at h; simp at h
    | some pv =>
      simp [mergePatchesAt, merge_table_row, CakeRack.hasKey, hv, hpv]
  | some v =>
    cases hpv : List.lookup k prev.store with
    | none =>
      simp [mergePatchesAt, merge_table_row, CakeRack.hasKey, hv, hpv]
    | some pv =>
      cases v with
      | none =>
        cases pv with
        | none =>
          simp [mergePatchesAt, merge_table_row, CakeRack.hasKey,
            CakeRack.is_neuron, spec_neuron_like, hv, hpv]
        | some pc =>
          simp [mergePatchesAt, merge_table_row, CakeRack.hasKey,
            CakeRack.is_neuron, spec_neuron_like, hv, hpv]
      | some c =>
        cases pv with
        | none =>
          simp [mergePatchesAt, merge_table_row, CakeRack.hasKey,
            CakeRack.is_neuron, spec_neuron_like, hv, hpv]
        | some pc =>
          simp [mergePatchesAt, merge_table_row, CakeRack.hasKey,
            CakeRack.is_neuron, spec_neuron_like, hv, hpv]
          by_cases hvpv : c = pc
          · rw [if_pos hvpv, if_pos hvpv]
          · rw [if_neg hvpv, if_neg hvpv]
            by_cases hboth : c.role = CakeRole.NEURON ∧ pc.role = CakeRole.NEURON
            · rw [if_pos hboth, if_pos hboth]
            · rw [if_neg hboth, if_neg hboth]
              by_cases hm : (pc.role = CakeRole.NEURON ↔ c.role = CakeRole.NEURON)
              · rw [if_pos hm, if_pos (Iff.comm.mp hm)]
              · rw [if_neg hm, if_neg (fun hc => hm (Iff.comm.mp hc))]

theorem merge_table_row_shape (new prev : CakeRack) (k : List Char) :
    merge_table_row new prev k = [] ∨
    (∃ p : PatchAction × List Char × Option Cake,
      merge_table_row new prev k = [p] ∧ p.2.1 = k) ∨
    (∃ v, merge_table_row new prev k =
      [(PatchAction.delete, k, none), (PatchAction.update, k, v)]) := by
  rw [merge_table_row]
  by_cases h1 : new.hasKey k = false ∧ prev.hasKey k = true
  · rw [if_pos h1]
    right; left
    exact ⟨(PatchAction.delete, k, none), rfl, rfl⟩
  · rw [if_neg h1]
    by_cases h2 : new.hasKey k = true ∧ prev.hasKey k = false
    · rw [if_pos h2]
      right; left
      exact ⟨(PatchAction.update, k, (List.lookup k new.store).getD none), rfl, rfl⟩
    · rw [if_neg h2]
      by_cases h3 : (List.lookup k new.store).getD none =
          (List.lookup k prev.store).getD none
      · rw [if_pos h3]; left; rfl
      · rw [if_neg h3]
        by_cases h4 : spec_neuron_like new k = true ∧ spec_neuron_like prev k = true
        · rw [if_pos h4]; left; rfl
        · rw [if_neg h4]
          by_cases h5 : spec_neuron_like new k = spec_neuron_like prev k
          · rw [if_pos h5]
            right; left
            exact ⟨(PatchAction.update, k, (List.lookup k new.store).getD none),
              rfl, rfl⟩
          · rw [if_neg h5]
            right; right
            exact ⟨(List.lookup k new.store).getD none, rfl⟩

theorem merge_table_row_chain (new prev : CakeRack) (k : List Char) :
    List.Chain' patchOrder (merge_table_row new prev k) := by
  rcases merge_table_row_shape new prev k with h | ⟨p, h, -⟩ | ⟨v, h⟩ <;> rw [h]
  · exact List.chain'_nil
  · exact List.chain'_singleton _
  · exact List.chain'_cons.mpr ⟨Or.inr ⟨rfl, rfl, rfl⟩, List.chain'_singleton _⟩

theorem merge_table_row_names (new prev : CakeRack) (k : List Char) :
    ∀ p ∈ merge_table_row new prev k, p.2.1 = k := by
  rcases merge_table_row_shape new prev k with h | ⟨p0, h, hn⟩ | ⟨v, h⟩ <;>
    rw [h] <;> intro p hp
  · simp at hp
  · rw [List.mem_singleton] at hp
    subst hp
    exact hn
  · rcases List.mem_cons.mp hp with h1 | h1
    · subst h1; rfl
    · rw [List.mem_singleton] at h1
      subst h1; rfl

theorem flatMap_congr {α β : Type} :
    ∀ (l : List α) (f g : α → List β), (∀ a ∈ l, f a = g a) →
      l.flatMap f = l.flatMap g := by
  intro l f g
  induction l with
  | nil => intro _; rfl
  | cons a l ih =>
    intro h
    rw [List.flatMap_cons, List.flatMap_cons, h a (List.mem_cons_self _ _),
      ih (fun b hb => h b (List.mem_cons_of_mem a hb))]

theorem mem_of_getLast?_mem {α : Type} {l : List α} {x : α}
    (h : x ∈ l.getLast?) : x ∈ l := by
  induction l with
  | nil => simp [List.getLast?] at h
  | cons a l ih =>
    cases l with
    | nil =>
      simp only [List.getLast?_singleton, Option.mem_def, Option.some_inj] at h
      subst h
      exact List.mem_cons_self _ _
    | cons b m =>
      rw [List.getLast?_cons_cons] at h
      exact List.mem_cons_of_mem a (ih h)

theorem chain'_flatMap
    (B : List Char → List (PatchAction × List Char × Option Cake)) :
    ∀ keys : List (List Char),
      List.Pairwise (fun a b => strle a b ∧ a ≠ b) keys →
      (∀ k ∈ keys, ∀ p ∈ B k, p.2.1 = k) →
      (∀ k ∈ keys, List.Chain' patchOrder (B k)) →
      List.Chain' patchOrder (keys.flatMap B) := by
  intro keys
  induction keys with
  | nil => intro _ _ _; simp
  | cons k ks ih =>
    intro hpw hname hchain
    obtain ⟨hhead, htail⟩ := List.pairwise_cons.mp hpw
    rw [List.flatMap_cons, List.chain'_append]
    refine ⟨hchain k (List.mem_cons_self _ _),
      ih htail (fun k' hk' => hname k' (List.mem_cons_of_mem k hk'))
        (fun k' hk' => hchain k' (List.mem_cons_of_mem k hk')), ?_⟩
    intro x hx y hy
    have hxk : x.2.1 = k :=
      hname k (List.mem_cons_self _ _) x (mem_of_getLast?_mem hx)
    obtain ⟨k', hk', hyk'⟩ := List.mem_flatMap.mp (List.mem_of_mem_head? hy)
    have hyk : y.2.1 = k' := hname k' (List.mem_cons_of_mem k hk') y hyk'
    left
    rw [hxk, hyk]
    exact hhead k' hk'

theorem hasKey_of_mem_mergeKeys (new prev : CakeRack) (k : List Char)
    (hk : k ∈ mergeKeys new prev) :
    new.hasKey k = true ∨ prev.hasKey k = true := by
  rw [mergeKeys, List.mem_insertionSort, List.mem_dedup, List.mem_append] at hk
  rcases hk with h | h
  · left
    rw [CakeRack.keys, List.mem_insertionSort] at h
    exact lookup_isSome_of_mem_fst k new.store h
  · right
    rw [CakeRack.keys, List.mem_insertionSort] at h
    exact lookup_isSome_of_mem_fst k prev.store h

/-- C3: `CakeRack.merge` emits, in strictly ascending name order over the
sorted deduplicated union of both key sets, exactly the patches of the
spec's six-case table, with `delete` immediately before `update` within a
single name. -/
theorem cake_rack_merge_spec (new prev : CakeRack) :
    CakeRack.merge new prev =
      (mergeKeys new prev).flatMap (merge_table_row new prev) ∧
    List.Pairwise (fun a b => strle a b ∧ a ≠ b) (mergeKeys new prev) ∧
    List.Chain' patchOrder (CakeRack.merge new prev) := by
  have heq : CakeRack.merge new prev =
      (mergeKeys new prev).flatMap (merge_table_row new prev) :=
    flatMap_congr _ _ _
      (fun k hk => mergePatchesAt_eq_table new prev k
        (hasKey_of_mem_mergeKeys new prev k hk))
  have hs : List.Pairwise strle (mergeKeys new prev) :=
    List.sorted_insertionSort strle _
  have hnd : (mergeKeys new prev).Nodup :=
    ((List.perm_insertionSort strle _).nodup_iff).mpr (List.nodup_dedup _)
  refine ⟨heq, hs.and hnd, ?_⟩
  rw [heq]
  exact chain'_flatMap _ _ (hs.and hnd)
    (fun k _ => merge_table_row_names new prev k)
    (fun k _ => merge_table_row_chain new prev k)

/-- Concrete evaluation of `merge`, mirroring the doctest scenarios: a name
only in `new` yields an update, a name only in `prev` a delete, and a name
whose two values differ but are both neuron-like yields nothing. -/
theorem merge_concrete_eval :
    CakeRack.merge
      ⟨[(['o', '1'], some ⟨[1], CakeType.INLINE, CakeRole.SYNAPSE⟩),
        (['o', '2'], none)]⟩
      ⟨[(['o', '2'], some ⟨[2], CakeType.INLINE, CakeRole.NEURON⟩),
        (['o', '3'], some ⟨[1], CakeType.INLINE, CakeRole.SYNAPSE⟩)]⟩ =
      [(PatchAction.update, ['o', '1'],
          some ⟨[1], CakeType.INLINE, CakeRole.SYNAPSE⟩),
       (PatchAction.delete, ['o', '3'], none)] := by decide

/-! ### C7: rack self-address stability under serialize/parse -/

/-- `CakeRack.get_cakes(names)`: the stored values in the given name
order. -/
def CakeRack.get_cakes (r : CakeRack) (names : List (List Char)) :
    List (Option Cake) :=
  names.map (fun k => (List.lookup k r.store).getD none)

/-- `CakeRack.to_json()`: `(sorted keys, cakes in that order)`. -/
def CakeRack.to_json (r : CakeRack) : List (List Char) × List (Option Cake) :=
  (r.keys, r.get_cakes r.keys)

/-- Cakes rendered as base-62 strings (null passes through), as the JSON
encoder sees them. -/
def renderCakes (cakes : List (Option Cake)) : List (Option (List Char)) :=
  cakes.map (Option.map Cake.toString)

/-- `str(rack) = json.dumps(rack.to_json())`; `dumps` is the external JSON
serializer of the Python stdlib. -/
def CakeRack.rack_str
    (dumps : List (List Char) × List (Option (List Char)) → List Char)
    (r : CakeRack) : List Char :=
  dumps (r.to_json.1, renderCakes r.to_json.2)

/-- `Cake.ensure_it_or_none`: None passes through, a string is parsed as a
Cake; `none` models the parse exception. -/
def Cake.ensure_it_or_none (v : Option (List Char)) : Option (Option Cake) :=
  match v with
  | none => some none
  | some s => (Cake.fromString s).map some

/-- `map(Cake.ensure_it_or_none, cakes)` with exception propagation. -/
def ensureAll : List (Option (List Char)) → Option (List (Option Cake))
  | [] => some []
  | v :: vs =>
    match Cake.ensure_it_or_none v, ensureAll vs with
    | some c, some cs => some (c :: cs)
    | _, _ => none

/-- `CakeRack(s)` for a string `s`: `json.loads` (the external parser
`loads`) followed by `store.update(zip(names, map(ensure_it_or_none,
cakes)))` on a fresh rack. -/
def CakeRack.parse
    (loads : List Char → Option (List (List Char) × List (Option (List Char))))
    (s : List Char) : Option CakeRack :=
  match loads s with
  | none => none
  | some (names, cakes) =>
    match ensureAll cakes with
    | none => none
    | some cs => some ⟨names.zip cs⟩

/-- `CakeRack.cake()`: `Cake.from_digest_and_inline_data(sha(bytes), bytes,
role=NEURON)` over the UTF-8 bytes (`utf8` external) of the canonical
serialization. -/
def CakeRack.cake (sha : List Nat → List Nat) (utf8 : List Char → List Nat)
    (dumps : List (List Char) × List (Option (List Char)) → List Char)
    (r : CakeRack) : Option Cake :=
  let in_bytes := utf8 (r.rack_str dumps)
  Cake.from_digest_and_inline_data (sha in_bytes) (some in_bytes) CakeRole.NEURON

theorem lookup_mem {α β : Type} [BEq α] [LawfulBEq α] {k : α} {v : β} :
    ∀ l : List (α × β), List.lookup k l = some v → (k, v) ∈ l := by
  intro l
  induction l with
  | nil => intro h; simp [List.lookup] at h
  | cons p rest ih =>
    intro h
    obtain ⟨k', v'⟩ := p
    rw [List.lookup_cons] at h
    cases hbeq : k == k' with
    | true =>
      rw [hbeq] at h
      have hk : k = k' := eq_of_beq hbeq
      have hv : v' = v := Option.some_inj.mp h
      subst hk; subst hv
      exact List.mem_cons_self _ _
    | false =>
      rw [hbeq] at h
      exact List.mem_cons_of_mem _ (ih h)

theorem ensureAll_render (cakes : List (Option Cake))
    (h : ∀ oc ∈ cakes, ∀ c, oc = some c → c.WF) :
    ensureAll (renderCakes cakes) = some cakes := by
  induction cakes with
  | nil => rfl
  | cons oc rest ih =>
    have hrest := ih (fun oc' h' c hc => h oc' (List.mem_cons_of_mem oc h') c hc)
    cases oc with
    | none =>
      show (match Cake.ensure_it_or_none none, ensureAll (renderCakes rest) with
        | some c, some cs => some (c :: cs)
        | _, _ => none) = _
      rw [hrest]
      rfl
    | some c =>
      have hwf : c.WF := h (some c) (List.mem_cons_self _ _) c rfl
      show (match Cake.ensure_it_or_none (some (Cake.toString c)),
          ensureAll (renderCakes rest) with
        | some c, some cs => some (c :: cs)
        | _, _ => none) = _
      rw [hrest]
      show (match (Cake.fromString (Cake.toString c)).map some,
          some rest with
        | some c, some cs => some (c :: cs)
        | _, _ => none) = _
      rw [fromString_toString c hwf]
      rfl

theorem map_lookup_zip :
    ∀ (ks : List (List Char)) (vs : List (Option Cake)), ks.Nodup →
      ks.length = vs.length →
      ks.map (fun k => (List.lookup k (ks.zip vs)).getD none) = vs := by
  intro ks
  induction ks with
  | nil =>
    intro vs _ hlen
    cases vs with
    | nil => rfl
    | cons v vs => simp at hlen
  | cons k ks' ih =>
    intro vs hnd hlen
    cases vs with
    | nil => simp at hlen
    | cons v vs' =>
      obtain ⟨hnotin, hnd'⟩ := List.nodup_cons.mp hnd
      rw [List.zip_cons_cons, List.map_cons]
      have hhead : (List.lookup k ((k, v) :: ks'.zip vs')).getD none = v := by
        rw [List.lookup_cons]
        have : (k == k) = true := beq_self_eq_true k
        rw [this]
        rfl
      rw [hhead]
      have htail : ks'.map
          (fun k' => (List.lookup k' ((k, v) :: ks'.zip vs')).getD none) =
          ks'.map (fun k' => (List.lookup k' (ks'.zip vs')).getD none) := by
        apply List.map_congr_left
        intro k' hk'
        have hne : (k' == k) = false := by
          rw [beq_eq_false_iff_ne]
          intro hc
          exact hnotin (hc ▸ hk')
        rw [List.lookup_cons, hne]
      rw [htail, ih vs' hnd' (by simpa using hlen)]

theorem from_digest_and_inline_data_isSome (digest : List Nat)
    (buf : List Nat) (role : CakeRole) (hd : digest.length = 32) :
    (Cake.from_digest_and_inline_data digest (some buf) role).isSome = true := by
  rw [Cake.from_digest_and_inline_data]
  by_cases hb : buf.length ≤ inline_max_bytes
  · rw [if_pos hb, Cake.init_parts, if_neg (by
      intro hcond
      simp [Cake.has_data] at hcond)]
    rfl
  · rw [if_neg hb, Cake.init_parts, if_neg (by
      intro hcond
      exact hcond.2 hd)]
    rfl

/-- C7: parsing the canonical serialization of a rack into a fresh rack
yields a rack whose `cake()` is defined and equal to the original rack's
`cake()`.  The external SHA-256, UTF-8 encoder, and JSON
serializer/parser are parameters; `hloads` is the JSON library's round-trip
contract at this one serialization. -/
theorem rack_cake_roundtrip (sha : List Nat → List Nat)
    (utf8 : List Char → List Nat)
    (dumps : List (List Char) × List (Option (List Char)) → List Char)
    (loads : List Char → Option (List (List Char) × List (Option (List Char))))
    (r : CakeRack)
    (hnodup : (r.store.map Prod.fst).Nodup)
    (hwf : ∀ p ∈ r.store, ∀ c, p.2 = some c → Cake.WF c)
    (hsha : ∀ x, (sha x).length = 32)
    (hloads : loads (CakeRack.rack_str dumps r) =
      some (r.to_json.1, renderCakes r.to_json.2)) :
    ∃ r2, CakeRack.parse loads (CakeRack.rack_str dumps r) = some r2 ∧
      CakeRack.cake sha utf8 dumps r2 = CakeRack.cake sha utf8 dumps r ∧
      (CakeRack.cake sha utf8 dumps r).isSome = true := by
  have hkeys_nd : r.keys.Nodup :=
    ((List.perm_insertionSort strle _).nodup_iff).mpr hnodup
  have hkeys_sorted : List.Sorted strle r.keys :=
    List.sorted_insertionSort strle _
  have hwf_cakes : ∀ oc ∈ r.to_json.2, ∀ c, oc = some c → Cake.WF c := by
    intro oc hoc c hc
    subst hc
    rw [CakeRack.to_json] at hoc
    simp only [CakeRack.get_cakes, List.mem_map] at hoc
    obtain ⟨k, -, hk⟩ := hoc
    cases hl : List.lookup k r.store with
    | none => rw [hl] at hk; simp at hk
    | some v =>
      rw [hl] at hk
      rw [Option.getD_some] at hk
      subst hk
      exact hwf (k, some c) (lookup_mem r.store hl) c rfl
  have hens : ensureAll (renderCakes r.to_json.2) = some r.to_json.2 :=
    ensureAll_render _ hwf_cakes
  refine ⟨⟨r.to_json.1.zip r.to_json.2⟩, ?_, ?_, ?_⟩
  · simp only [CakeRack.parse, hloads, hens]
  · have hlen : r.to_json.1.length = r.to_json.2.length := by
      rw [CakeRack.to_json]
      simp [CakeRack.get_cakes]
    have hfst : (CakeRack.mk (r.to_json.1.zip r.to_json.2)).store.map Prod.fst =
        r.keys := by
      show (r.to_json.1.zip r.to_json.2).map Prod.fst = r.keys
      rw [List.map_fst_zip _ _ (le_of_eq hlen)]
      rfl
    have hkeys2 : (CakeRack.mk (r.to_json.1.zip r.to_json.2)).keys = r.keys := by
      rw [CakeRack.keys, hfst]
      exact hkeys_sorted.insertionSort_eq
    have hjson : (CakeRack.mk (r.to_json.1.zip r.to_json.2)).to_json =
        r.to_json := by
      show ((CakeRack.mk (r.to_json.1.zip r.to_json.2)).keys,
        (CakeRack.mk (r.to_json.1.zip r.to_json.2)).get_cakes
          (CakeRack.mk (r.to_json.1.zip r.to_json.2)).keys) = r.to_json
      rw [hkeys2]
      have hcakes : (CakeRack.mk (r.to_json.1.zip r.to_json.2)).get_cakes
          r.keys = r.to_json.2 :=
        map_lookup_zip r.to_json.1 r.to_json.2 hkeys_nd hlen
      rw [hcakes]
      rfl
    rw [CakeRack.cake, CakeRack.cake, CakeRack.rack_str, CakeRack.rack_str, hjson]
  · rw [CakeRack.cake]
    exact from_digest_and_inline_data_isSome _ _ _ (hsha _)

/-- Witness for `rack_cake_roundtrip` at the empty rack, with concrete
stand-ins for the external SHA-256, UTF-8 and JSON functions. -/
theorem rack_cake_roundtrip_witness :
    ∃ r2, CakeRack.parse (fun _ => some ([], []))
        (CakeRack.rack_str (fun _ => ['j']) ⟨[]⟩) = some r2 ∧
      CakeRack.cake (fun _ => List.replicate 32 0) (fun _ => [])
          (fun _ => ['j']) r2 =
        CakeRack.cake (fun _ => List.replicate 32 0) (fun _ => [])
          (fun _ => ['j']) ⟨[]⟩ ∧
      (CakeRack.cake (fun _ => List.replicate 32 0) (fun _ => [])
          (fun _ => ['j']) ⟨[]⟩).isSome = true :=
  rack_cake_roundtrip (fun _ => List.replicate 32 0) (fun _ => [])
    (fun _ => ['j']) (fun _ => some ([], [])) ⟨[]⟩
    (by simp) (by simp) (fun _ => rfl) (by decide)

end Hashstore
